import Mathlib

/-!
Verification of the claude-all PRD state machine and agent-loop driver.

This file gives a shallow embedding, in Lean 4, of the core logic of the
claude-all repository (config resolver, task-list validator, task-list status
reader, run archiver, agent-loop driver, argument parser), translated from
`src/lib/config.js`, `src/lib/core.js` and `src/lib/prd-utils.js`, together
with theorems settling the testable properties of its specification.

JavaScript values are modelled by the inductive type `JsVal`; functions that
can raise a runtime `TypeError` (property access on `null`/`undefined`) are
embedded in the `Except Unit` monad.  File systems are modelled as finite
partial maps from path strings to content strings, and `JSON.parse` by an
executable recursive-descent parser (`jsonParse`, numbers restricted to
integers, which covers every numeric value the task-list schema uses).
-/

namespace ClaudeAll

/-! ## JavaScript value model -/

/-- A JavaScript value, as far as the PRD logic observes it: `null`,
`undefined`, booleans, (integer) numbers, strings, arrays and plain objects
(association lists of fields, first binding wins on lookup). -/
inductive JsVal where
  | null : JsVal
  | undefined : JsVal
  | bool : Bool → JsVal
  | num : Int → JsVal
  | str : String → JsVal
  | arr : List JsVal → JsVal
  | obj : List (String × JsVal) → JsVal

/-- JavaScript truthiness: `null`, `undefined`, `false`, `0` and `""` are
falsy; every array and object is truthy. -/
def truthy : JsVal → Bool
  | .null => false
  | .undefined => false
  | .bool b => b
  | .num n => n != 0
  | .str s => s != ""
  | .arr _ => true
  | .obj _ => true

/-- The JavaScript `typeof` operator (restricted to the values `JsVal`
models; note `typeof null` is `"object"`). -/
def jsTypeof : JsVal → String
  | .null => "object"
  | .undefined => "undefined"
  | .bool _ => "boolean"
  | .num _ => "number"
  | .str _ => "string"
  | .arr _ => "object"
  | .obj _ => "object"

/-- Property access `v.k`: throws a `TypeError` on `null`/`undefined`
(modelled as `Except.error ()`), yields the value of the field on an object that
has the field, and `undefined` otherwise (primitives and arrays have none of
the fields this program reads). -/
def getField : JsVal → String → Except Unit JsVal
  | .null, _ => .error ()
  | .undefined, _ => .error ()
  | .obj fields, k =>
      .ok (match fields.lookup k with
           | some v => v
           | none => .undefined)
  | _, _ => .ok .undefined

/-- The `Array.isArray` test. -/
def isArray : JsVal → Bool
  | .arr _ => true
  | _ => false

/-- Strict equality `v === false`. -/
def strictEqFalse : JsVal → Bool
  | .bool false => true
  | _ => false

/-- Strict equality `v === s` against a string literal. -/
def strictEqStr (v : JsVal) (s : String) : Bool :=
  match v with
  | .str t => t == s
  | _ => false

/-- Strict equality `v === n` against a number literal. -/
def strictEqNum (v : JsVal) (n : Int) : Bool :=
  match v with
  | .num m => m == n
  | _ => false

/-! ## String helpers (list-level, fully computable) -/

/-- Whether `pre` is a prefix of `s`, on character lists. -/
def strStartsWith (s pre : String) : Bool :=
  pre.data.isPrefixOf s.data

/-- Whether `pat` occurs as a contiguous substring of `s` (JavaScript
`s.includes(pat)`), on character lists. -/
def containsSub (s pat : List Char) : Bool :=
  match s with
  | [] => pat.isEmpty
  | _ :: rest => pat.isPrefixOf s || containsSub rest pat

/-- String-level wrapper for `containsSub`. -/
def strContains (s pat : String) : Bool :=
  containsSub s.data pat.data

/-- Decimal digits of a natural number, most significant first
(fuel-based so that it reduces definitionally). -/
def natStrAux : Nat → Nat → List Char
  | 0, _ => []
  | fuel + 1, n =>
      if n < 10 then [Char.ofNat (48 + n)]
      else natStrAux fuel (n / 10) ++ [Char.ofNat (48 + n % 10)]

/-- Decimal rendering of a natural number. -/
def natToStr (n : Nat) : String :=
  ⟨natStrAux (n + 1) n⟩

/-- JavaScript `String(n).padStart(3, '0')` applied to a rendered number. -/
def padStart3 (s : String) : String :=
  ⟨List.replicate (3 - s.data.length) '0' ++ s.data⟩

/-! ## Config resolver (`src/lib/config.js`, `createConfig`)

The path functions model Node `path.posix`: `path.join` drops empty
arguments, joins the rest with `/`, and then normalizes the result —
resolving `.` and `..` segments, collapsing repeated slashes, preserving
absoluteness and a trailing separator, and yielding `.` for an empty
result. -/

/-- Split a character list at every `/`, keeping empty segments (the
accumulator holds the current segment reversed). -/
def splitOnSlash : List Char → List Char → List String
  | [], acc => [⟨acc.reverse⟩]
  | c :: rest, acc =>
      if c = '/' then ⟨acc.reverse⟩ :: splitOnSlash rest []
      else splitOnSlash rest (c :: acc)

/-- A path segment that normalization keeps as-is: nonempty and neither
`.` nor `..`. -/
def plainSeg (x : String) : Bool :=
  decide (x ≠ "" ∧ x ≠ "." ∧ x ≠ "..")

/-- The segment stack of Node `normalizeString`: empty and `.` segments are
dropped; `..` pops a plain segment, accumulates on a relative path, and is
discarded at the root of an absolute one; other segments are pushed. -/
def normSegs (isAbs : Bool) : List String → List String → List String
  | [], acc => acc.reverse
  | seg :: rest, acc =>
      if seg = "" ∨ seg = "." then normSegs isAbs rest acc
      else if seg = ".." then
        match acc with
        | [] => if isAbs then normSegs isAbs rest [] else normSegs isAbs rest [".."]
        | top :: acc2 =>
            if top = ".." then normSegs isAbs rest (".." :: top :: acc2)
            else normSegs isAbs rest acc2
      else normSegs isAbs rest (seg :: acc)

/-- Join segments with `/` (inverse of `splitOnSlash` on slash-free
segments). -/
def joinSegs : List String → String
  | [] => ""
  | [x] => x
  | x :: xs => x ++ "/" ++ joinSegs xs

/-- Whether the last character is `/`. -/
def endsWithSlash (s : String) : Bool :=
  match s.data.getLast? with
  | some c => decide (c = '/')
  | none => false

/-- Node `path.posix.normalize`. -/
def pathNormalize (s : String) : String :=
  if s = "" then "."
  else
    let isAbs := strStartsWith s "/"
    let trailing := endsWithSlash s
    let core := joinSegs (normSegs isAbs (splitOnSlash s.data []) [])
    if core = "" then
      if isAbs then "/" else if trailing then "./" else "."
    else
      let core2 := if trailing then core ++ "/" else core
      if isAbs then "/" ++ core2 else core2

/-- Node `path.posix.join` over a list of arguments: drop empty parts, join
the rest with `/`, normalize; all-empty input yields `.`. -/
def pathJoinList (parts : List String) : String :=
  match parts.filter (fun p => p != "") with
  | [] => "."
  | ps => pathNormalize (joinSegs ps)

/-- Binary `path.join(a, b)`. -/
def pathJoin (a b : String) : String :=
  pathJoinList [a, b]

/-- A root already in Node-normalized form without a trailing slash: an
optional leading `/` followed by nonempty `/`-separated segments, none of
them `.` or `..` (these are the paths on which joining a plain file name is
plain concatenation). -/
def cleanRoot (s : String) : Bool :=
  match s.data with
  | [] => false
  | c :: rest =>
      if c = '/' then (splitOnSlash rest []).all plainSeg
      else (splitOnSlash (c :: rest) []).all plainSeg

/-- The completion marker literal `COMPLETION_SIGNAL` from `core.js`. -/
def COMPLETION_SIGNAL : String := "<promise>COMPLETE</promise>"

/-- The configuration record returned by `createConfig`. -/
structure Config where
  SCRIPT_DIR : String
  WORKING_DIR : String
  OUTPUT_DIR : String
  PRD_FILE : String
  PROGRESS_FILE : String
  ARCHIVE_DIR : String
  LAST_BRANCH_FILE : String
  PROMPT_FILE : String
  SIGNAL : String

/-- Model of `createConfig(workingDir, scriptDir)` from `src/lib/config.js` (the
object-options variant in `core.js` builds the identical record): all mutable
state paths hang off `workingDir + "/output"`, the prompt template off
`scriptDir + "/lib"`. -/
def createConfig (workingDir scriptDir : String) : Config :=
  let outputDir := pathJoin workingDir "output"
  { SCRIPT_DIR := scriptDir
    WORKING_DIR := workingDir
    OUTPUT_DIR := outputDir
    PRD_FILE := pathJoin outputDir "prd.json"
    PROGRESS_FILE := pathJoin outputDir "progress.txt"
    ARCHIVE_DIR := pathJoin outputDir "archive"
    LAST_BRANCH_FILE := pathJoin outputDir ".last-branch"
    PROMPT_FILE := pathJoinList [scriptDir, "lib", "prompt.md"]
    SIGNAL := COMPLETION_SIGNAL }

/-! ## Path lemmas for the config resolver -/

theorem strContains_of_pre (s pre : String) (h : pre.data <+: s.data) :
    strContains s pre = true := by
  unfold strContains
  cases hs : s.data with
  | nil =>
      rw [hs] at h
      have : pre.data = [] := List.prefix_nil.mp h
      simp [containsSub, this]
  | cons a rest =>
      rw [hs] at h
      have hb : pre.data.isPrefixOf (a :: rest) = true :=
        List.isPrefixOf_iff_prefix.mpr h
      simp [containsSub, hb]

theorem splitOnSlash_ne_nil : ∀ (cs acc : List Char), splitOnSlash cs acc ≠ [] := by
  intro cs
  induction cs with
  | nil => intro acc; simp [splitOnSlash]
  | cons c rest ih =>
      intro acc
      by_cases hc : c = '/'
      · simp [splitOnSlash, hc]
      · simp only [splitOnSlash, if_neg hc]
        exact ih (c :: acc)

theorem splitOnSlash_append (xs : List Char) :
    ∀ (cs acc : List Char),
      splitOnSlash (cs ++ '/' :: xs) acc =
        splitOnSlash cs acc ++ splitOnSlash xs [] := by
  intro cs
  induction cs with
  | nil => intro acc; simp [splitOnSlash]
  | cons c rest ih =>
      intro acc
      by_cases hc : c = '/'
      · subst hc
        simp [splitOnSlash, ih]
      · simp only [List.cons_append, splitOnSlash, if_neg hc]
        exact ih (c :: acc)

theorem splitOnSlash_noslash : ∀ (cs acc : List Char), '/' ∉ cs →
    splitOnSlash cs acc = [⟨acc.reverse ++ cs⟩] := by
  intro cs
  induction cs with
  | nil => intro acc _; simp [splitOnSlash]
  | cons c rest ih =>
      intro acc h
      have hc : c ≠ '/' := by
        rintro rfl
        exact h (List.mem_cons_self _ _)
      rw [splitOnSlash, if_neg hc,
        ih (c :: acc) fun hm => h (List.mem_cons_of_mem _ hm)]
      simp [List.append_assoc]

theorem joinSegs_splitOnSlash : ∀ (cs acc : List Char),
    joinSegs (splitOnSlash cs acc) = ⟨acc.reverse ++ cs⟩ := by
  intro cs
  induction cs with
  | nil => intro acc; simp [splitOnSlash, joinSegs]
  | cons c rest ih =>
      intro acc
      by_cases hc : c = '/'
      · subst hc
        obtain ⟨h, t, hht⟩ : ∃ h t, splitOnSlash rest [] = h :: t := by
          cases hs : splitOnSlash rest []
          · exact absurd hs (splitOnSlash_ne_nil rest [])
          · exact ⟨_, _, rfl⟩
        rw [splitOnSlash, if_pos rfl, hht]
        show (⟨acc.reverse⟩ : String) ++ "/" ++ joinSegs (h :: t) =
          (⟨acc.reverse ++ '/' :: rest⟩ : String)
        rw [← hht, ih []]
        apply String.ext
        simp [String.data_append]
      · rw [splitOnSlash, if_neg hc, ih (c :: acc)]
        apply congrArg String.mk
        simp [List.append_assoc]

theorem normSegs_plain (b : Bool) :
    ∀ (segs acc : List String), segs.all plainSeg = true →
      normSegs b segs acc = acc.reverse ++ segs := by
  intro segs
  induction segs with
  | nil => intro acc _; simp [normSegs]
  | cons seg rest ih =>
      intro acc h
      rw [List.all_cons, Bool.and_eq_true] at h
      have hp := of_decide_eq_true h.1
      have hno : ¬(seg = "" ∨ seg = ".") := not_or.mpr ⟨hp.1, hp.2.1⟩
      have hnd : seg ≠ ".." := hp.2.2
      simp only [normSegs, hno, hnd, if_false, ih (seg :: acc) h.2]
      simp [List.append_assoc]

theorem getLast_ne_slash : ∀ (cs acc : List Char),
    (splitOnSlash cs acc).all plainSeg = true → cs.getLast? ≠ some '/' := by
  intro cs
  induction cs with
  | nil => intro acc _ hbad; exact Option.noConfusion hbad
  | cons c rest ih =>
      intro acc h
      by_cases hc : c = '/'
      · subst hc
        rw [splitOnSlash, if_pos rfl, List.all_cons, Bool.and_eq_true] at h
        cases rest with
        | nil =>
            exfalso
            simp [splitOnSlash, plainSeg] at h
        | cons d ds =>
            rw [List.getLast?_cons_cons]
            exact ih [] h.2
      · rw [splitOnSlash, if_neg hc] at h
        cases rest with
        | nil =>
            intro hbad
            rw [List.getLast?_singleton] at hbad
            exact hc (Option.some.inj hbad)
        | cons d ds =>
            rw [List.getLast?_cons_cons]
            exact ih (c :: acc) h

theorem endsWithSlash_eq_false (s : String) (h : s.data.getLast? ≠ some '/') :
    endsWithSlash s = false := by
  unfold endsWithSlash
  cases hgl : s.data.getLast? with
  | none => rfl
  | some e =>
      have he : e ≠ '/' := fun hee => h (by rw [hgl, hee])
      simp [he]

theorem cleanRoot_ne_empty (s : String) (h : cleanRoot s = true) : s ≠ "" := by
  rintro rfl
  exact absurd h (by decide)

theorem pathNormalize_clean (s : String) (h : cleanRoot s = true) :
    pathNormalize s = s := by
  have hne : s ≠ "" := cleanRoot_ne_empty s h
  cases hd : s.data with
  | nil => exact absurd (String.ext (hd.trans rfl)) hne
  | cons c rest =>
      simp only [cleanRoot, hd] at h
      by_cases hc : c = '/'
      · subst hc
        rw [if_pos rfl] at h
        have hrest_ne : rest ≠ [] := by
          rintro rfl
          simp [splitOnSlash, plainSeg] at h
        have hAbs : strStartsWith s "/" = true := by
          simp [strStartsWith, hd, List.isPrefixOf]
        have hTrail : endsWithSlash s = false := by
          apply endsWithSlash_eq_false
          rw [hd]
          cases rest with
          | nil => exact absurd rfl hrest_ne
          | cons d ds =>
              rw [List.getLast?_cons_cons]
              exact getLast_ne_slash (d :: ds) [] h
        have hsplit : splitOnSlash s.data [] = "" :: splitOnSlash rest [] := by
          rw [hd]
          simp [splitOnSlash]
        have hnorm : normSegs true ("" :: splitOnSlash rest []) [] =
            splitOnSlash rest [] := by
          show normSegs true (splitOnSlash rest []) [] = splitOnSlash rest []
          exact normSegs_plain true _ [] h
        have hjoin : joinSegs (splitOnSlash rest []) = ⟨rest⟩ :=
          (joinSegs_splitOnSlash rest []).trans (by simp)
        have hcorene : (⟨rest⟩ : String) ≠ "" := by
          intro hh
          exact hrest_ne (by simpa using congrArg String.data hh)
        unfold pathNormalize
        rw [if_neg hne]
        simp only [hAbs, hTrail, hsplit, hnorm, hjoin, if_true]
        rw [if_neg hcorene]
        simp only [Bool.false_eq_true, if_false, if_true]
        apply String.ext
        rw [String.data_append, hd]
        rfl
      · rw [if_neg hc] at h
        have hAbs : strStartsWith s "/" = false := by
          simp [strStartsWith, hd, List.isPrefixOf, Ne.symm hc]
        have hTrail : endsWithSlash s = false := by
          apply endsWithSlash_eq_false
          rw [hd]
          exact getLast_ne_slash (c :: rest) [] h
        have hnorm : normSegs false (splitOnSlash (c :: rest) []) [] =
            splitOnSlash (c :: rest) [] := normSegs_plain false _ [] h
        have hjoin : joinSegs (splitOnSlash (c :: rest) []) = ⟨c :: rest⟩ :=
          (joinSegs_splitOnSlash (c :: rest) []).trans (by simp)
        have hcorene : (⟨c :: rest⟩ : String) ≠ "" := by
          intro hh
          simpa using congrArg String.data hh
        unfold pathNormalize
        rw [if_neg hne]
        simp only [hd, hAbs, hTrail, hnorm, hjoin, Bool.false_eq_true, if_false]
        rw [if_neg hcorene]
        exact String.ext hd.symm

theorem append_data_eq (a x : String) :
    (a ++ "/" ++ x).data = a.data ++ '/' :: x.data := by
  rw [String.data_append, String.data_append, List.append_assoc]
  rfl

theorem cleanRoot_append (a x : String) (ha : cleanRoot a = true)
    (hx : plainSeg x = true) (hsf : '/' ∉ x.data) :
    cleanRoot (a ++ "/" ++ x) = true := by
  have hxs : splitOnSlash x.data [] = [x] := by
    rw [splitOnSlash_noslash x.data [] hsf]
    rfl
  cases hd : a.data with
  | nil => exact absurd (String.ext (hd.trans rfl)) (cleanRoot_ne_empty a ha)
  | cons c ra =>
      have hdata : (a ++ "/" ++ x).data = c :: (ra ++ '/' :: x.data) := by
        rw [append_data_eq, hd]
        rfl
      simp only [cleanRoot, hd] at ha
      simp only [cleanRoot, hdata]
      by_cases hc : c = '/'
      · rw [if_pos hc] at ha ⊢
        rw [splitOnSlash_append x.data ra [], hxs]
        simp [List.all_append, ha, hx]
      · rw [if_neg hc] at ha ⊢
        rw [show c :: (ra ++ '/' :: x.data) = (c :: ra) ++ '/' :: x.data from rfl,
          splitOnSlash_append x.data (c :: ra) [], hxs]
        simp [List.all_append, ha, hx]

theorem pathJoin_clean (a x : String) (ha : cleanRoot a = true)
    (hx : plainSeg x = true) (hsf : '/' ∉ x.data) :
    pathJoin a x = a ++ "/" ++ x := by
  have hane : a ≠ "" := cleanRoot_ne_empty a ha
  have hxne : x ≠ "" := (of_decide_eq_true hx).1
  unfold pathJoin pathJoinList
  rw [show ([a, x].filter (fun p => p != "")) = [a, x] from by
    simp [List.filter_cons, hane, hxne]]
  show pathNormalize (joinSegs [a, x]) = a ++ "/" ++ x
  rw [show joinSegs [a, x] = a ++ "/" ++ x from rfl]
  exact pathNormalize_clean _ (cleanRoot_append a x ha hx hsf)

theorem pathJoinList3_clean (a x y : String) (ha : cleanRoot a = true)
    (hx : plainSeg x = true) (hsfx : '/' ∉ x.data)
    (hy : plainSeg y = true) (hsfy : '/' ∉ y.data) :
    pathJoinList [a, x, y] = a ++ "/" ++ x ++ "/" ++ y := by
  have hane : a ≠ "" := cleanRoot_ne_empty a ha
  have hxne : x ≠ "" := (of_decide_eq_true hx).1
  have hyne : y ≠ "" := (of_decide_eq_true hy).1
  unfold pathJoinList
  rw [show ([a, x, y].filter (fun p => p != "")) = [a, x, y] from by
    simp [List.filter_cons, hane, hxne, hyne]]
  show pathNormalize (joinSegs [a, x, y]) = a ++ "/" ++ x ++ "/" ++ y
  have hj : joinSegs [a, x, y] = a ++ "/" ++ x ++ "/" ++ y := by
    apply String.ext
    simp [joinSegs, String.data_append, List.append_assoc]
  rw [hj]
  exact pathNormalize_clean _
    (cleanRoot_append _ y (cleanRoot_append a x ha hx hsfx) hy hsfy)

theorem prdFile_eq (W S : String) (hW : cleanRoot W = true) :
    (createConfig W S).PRD_FILE = W ++ "/output/prd.json" := by
  show pathJoin (pathJoin W "output") "prd.json" = W ++ "/output/prd.json"
  rw [pathJoin_clean W "output" hW (by decide) (by decide),
    pathJoin_clean _ "prd.json"
      (cleanRoot_append W "output" hW (by decide) (by decide))
      (by decide) (by decide)]
  apply String.ext
  simp only [String.data_append, List.append_assoc]
  refine congrArg (W.data ++ ·) ?_
  decide

theorem progressFile_eq (W S : String) (hW : cleanRoot W = true) :
    (createConfig W S).PROGRESS_FILE = W ++ "/output/progress.txt" := by
  show pathJoin (pathJoin W "output") "progress.txt" = W ++ "/output/progress.txt"
  rw [pathJoin_clean W "output" hW (by decide) (by decide),
    pathJoin_clean _ "progress.txt"
      (cleanRoot_append W "output" hW (by decide) (by decide))
      (by decide) (by decide)]
  apply String.ext
  simp only [String.data_append, List.append_assoc]
  refine congrArg (W.data ++ ·) ?_
  decide

theorem promptFile_eq (W S : String) (hS : cleanRoot S = true) :
    (createConfig W S).PROMPT_FILE = S ++ "/lib/prompt.md" := by
  show pathJoinList [S, "lib", "prompt.md"] = S ++ "/lib/prompt.md"
  rw [pathJoinList3_clean S "lib" "prompt.md" hS
    (by decide) (by decide) (by decide) (by decide)]
  apply String.ext
  simp only [String.data_append, List.append_assoc]
  refine congrArg (S.data ++ ·) ?_
  decide

/-- C1 (counterexample): the path-separation claim quantifies over all pairs
of distinct roots, but with working root `W = "a"` and install root
`S = "aa"` the prompt-template path `"aa/lib/prompt.md"` contains `W = "a"`
as a substring, refuting the conjunct "the prompt-template file path does not
contain W". -/
theorem c1_counterexample :
    ("a" : String) ≠ "aa" ∧
    strContains (createConfig "a" "aa").PROMPT_FILE "a" = true := by
  constructor
  · decide
  · decide

/-- C1 (amended): for clean roots `W`, `S` — paths already in Node
normalized form without a trailing slash: an optional leading `/` followed
by nonempty `/`-separated segments, none of them `.` or `..` — such that
neither is a string prefix of the other (which entails `W ≠ S`): the
task-list path contains `W` as a substring and the prompt-template path
contains `S`; the task-list and progress-log paths start with the working
root `W` and the prompt-template path starts with the install root `S`; and
the task-list path does not start with `S` nor the prompt-template path
with `W`.  (Full substring non-containment fails for overlapping roots,
e.g. `W = "a"`, `S = "aa"`; and for unnormalized roots such as `"./x"` the
joined paths do not even start with the root, hence the cleanness
hypothesis.) -/
theorem c1_path_separation (W S : String)
    (hcW : cleanRoot W = true) (hcS : cleanRoot S = true)
    (h1 : ¬ W.data <+: S.data) (h2 : ¬ S.data <+: W.data) :
    strContains (createConfig W S).PRD_FILE W = true ∧
    strContains (createConfig W S).PROMPT_FILE S = true ∧
    W.data <+: (createConfig W S).PRD_FILE.data ∧
    W.data <+: (createConfig W S).PROGRESS_FILE.data ∧
    S.data <+: (createConfig W S).PROMPT_FILE.data ∧
    ¬ S.data <+: (createConfig W S).PRD_FILE.data ∧
    ¬ W.data <+: (createConfig W S).PROMPT_FILE.data := by
  have hPrd : W.data <+: (createConfig W S).PRD_FILE.data := by
    rw [prdFile_eq W S hcW, String.data_append]
    exact List.prefix_append _ _
  have hProg : W.data <+: (createConfig W S).PROGRESS_FILE.data := by
    rw [progressFile_eq W S hcW, String.data_append]
    exact List.prefix_append _ _
  have hPrompt : S.data <+: (createConfig W S).PROMPT_FILE.data := by
    rw [promptFile_eq W S hcS, String.data_append]
    exact List.prefix_append _ _
  refine ⟨strContains_of_pre _ _ hPrd, strContains_of_pre _ _ hPrompt,
    hPrd, hProg, hPrompt, ?_, ?_⟩
  · intro hbad
    rcases List.prefix_or_prefix_of_prefix hbad hPrd with h | h
    · exact h2 h
    · exact h1 h
  · intro hbad
    rcases List.prefix_or_prefix_of_prefix hbad hPrompt with h | h
    · exact h1 h
    · exact h2 h

/-- C1 (witness): the amended path-separation theorem applied to the
concrete clean roots `W = "a"`, `S = "b"`. -/
theorem c1_path_separation_witness :
    cleanRoot "a" = true ∧
    cleanRoot "b" = true ∧
    (¬ ("a" : String).data <+: ("b" : String).data) ∧
    (¬ ("b" : String).data <+: ("a" : String).data) ∧
    (strContains (createConfig "a" "b").PRD_FILE "a" = true ∧
     strContains (createConfig "a" "b").PROMPT_FILE "b" = true ∧
     ("a" : String).data <+: (createConfig "a" "b").PRD_FILE.data ∧
     ("a" : String).data <+: (createConfig "a" "b").PROGRESS_FILE.data ∧
     ("b" : String).data <+: (createConfig "a" "b").PROMPT_FILE.data ∧
     (¬ ("b" : String).data <+: (createConfig "a" "b").PRD_FILE.data) ∧
     (¬ ("a" : String).data <+: (createConfig "a" "b").PROMPT_FILE.data)) :=
  ⟨by decide, by decide, by decide, by decide,
   c1_path_separation "a" "b" (by decide) (by decide) (by decide) (by decide)⟩

/-! ## Task-list validator (`src/lib/prd-utils.js`, `validatePrdJson`) -/

/-- JavaScript `ToNumber` as used by the sort comparator `(a, b) => a - b`
(`none` plays the role of `NaN`; string-to-number coercion is not modelled —
the comparator result only influences the sort order, and the subsequent
strict `!==` check makes the emitted error independent of how non-number
values are ordered). -/
def toNumber : JsVal → Option Int
  | .null => some 0
  | .undefined => none
  | .bool b => some (if b then 1 else 0)
  | .num n => some n
  | .str _ => none
  | .arr _ => none
  | .obj _ => none

/-- Comparator `(a, b) => a - b` yields a negative number (`NaN` is neither
negative nor positive, so it never reorders). -/
def numLt (a b : JsVal) : Bool :=
  match toNumber a, toNumber b with
  | some x, some y => decide (x < y)
  | _, _ => false

def isUndefined : JsVal → Bool
  | .undefined => true
  | _ => false

def insertByLt (x : JsVal) : List JsVal → List JsVal
  | [] => [x]
  | y :: ys => if numLt y x then y :: insertByLt x ys else x :: y :: ys

def sortByLt : List JsVal → List JsVal
  | [] => []
  | x :: xs => insertByLt x (sortByLt xs)

/-- Model of `Array.prototype.sort` with comparator `(a, b) => a - b`: a stable sort
by numeric value, `undefined` elements moved to the end (per the ECMAScript
sort specification). -/
def jsSortByNum (l : List JsVal) : List JsVal :=
  sortByLt (l.filter (fun v => !isUndefined v)) ++ l.filter isUndefined

/-- Integer rendering, `String(n)`. -/
def intToStr (n : Int) : String :=
  if n < 0 then "-" ++ natToStr n.natAbs else natToStr n.toNat

/-- JavaScript string conversion `String(v)` / template-literal
interpolation, fuel-based for the nested-array case (`Array.prototype.join`
renders `null`/`undefined` elements as the empty string). -/
def jsToStrAux : Nat → JsVal → String
  | _, .null => "null"
  | _, .undefined => "undefined"
  | _, .bool true => "true"
  | _, .bool false => "false"
  | _, .num n => intToStr n
  | _, .str s => s
  | 0, .arr _ => ""
  | fuel + 1, .arr xs =>
      String.intercalate ","
        (xs.map fun x =>
          match x with
          | .null => ""
          | .undefined => ""
          | v => jsToStrAux fuel v)
  | _, .obj _ => "[object Object]"

mutual

/-- Nesting depth of a value, enough fuel for `jsToStrAux`. -/
def jsDepth : JsVal → Nat
  | .arr xs => jsDepthList xs + 1
  | _ => 1

def jsDepthList : List JsVal → Nat
  | [] => 0
  | x :: xs => max (jsDepth x) (jsDepthList xs)

end

def jsToStr (v : JsVal) : String :=
  jsToStrAux (jsDepth v) v

/-- The check `prd.branchName.startsWith("ralph/")` (only evaluated on string
values in the source). -/
def startsWithRalph : JsVal → Bool
  | .str s => strStartsWith s "ralph/"
  | _ => false

/-- Left-to-right effectful map in the `Except` monad: the model of iterating
`forEach`/`map` over an array where each body may throw (the first throw
wins, exactly as in JavaScript). -/
def mapExcept {α β : Type} (f : α → Except Unit β) : List α → Except Unit (List β)
  | [] => .ok []
  | a :: as =>
      f a >>= fun b =>
      mapExcept f as >>= fun bs =>
      .ok (b :: bs)

/-- Per-story presence/type checks of `validatePrdJson` (loop body of the
`forEach` over `prd.userStories`), in source order, with the exact
diagnostic messages. -/
def validateStory (idx : Nat) (story : JsVal) : Except Unit (List String) :=
  getField story "id" >>= fun idV =>
  getField story "title" >>= fun titleV =>
  getField story "description" >>= fun descV =>
  getField story "acceptanceCriteria" >>= fun acV =>
  getField story "priority" >>= fun prV =>
  getField story "passes" >>= fun paV =>
  getField story "notes" >>= fun noV =>
  let pre := "userStories[" ++ natToStr idx ++ "]"
  let e1 := if !truthy idV || jsTypeof idV != "string" then
      [pre ++ ": Missing or invalid \"id\" field"] else []
  let e2 := if !truthy titleV || jsTypeof titleV != "string" then
      [pre ++ ": Missing or invalid \"title\" field"] else []
  let e3 := if !truthy descV || jsTypeof descV != "string" then
      [pre ++ ": Missing or invalid \"description\" field"] else []
  let e4 := if !isArray acV then
      [pre ++ ": Missing or invalid \"acceptanceCriteria\" array"] else []
  let e5 := if jsTypeof prV != "number" then
      [pre ++ ": Missing or invalid \"priority\" field (must be number)"] else []
  let e6 := if jsTypeof paV != "boolean" then
      [pre ++ ": Missing or invalid \"passes\" field (must be boolean)"] else []
  let e7 := if jsTypeof noV != "string" then
      [pre ++ ": Missing or invalid \"notes\" field (must be string)"] else []
  .ok (e1 ++ e2 ++ e3 ++ e4 ++ e5 ++ e6 ++ e7)

/-- The sequential-priority loop: over the sorted priorities, at most one
error, at the first element differing (by strict `!==`) from `i + 1`. -/
def seqPriorityGo : List JsVal → Int → List String
  | [], _ => []
  | v :: rest, i =>
      if strictEqNum v (i + 1) then seqPriorityGo rest (i + 1)
      else ["Priority numbers should be sequential starting from 1"]

/-- The sequential-id loop: over the story ids in list order, at most one
error, at the first id differing (by strict `!==`) from `US-<i+1 zero-padded
to 3 digits>`. -/
def seqIdGo : List JsVal → Nat → List String
  | [], _ => []
  | v :: rest, i =>
      let expectedId := "US-" ++ padStart3 (natToStr (i + 1))
      if strictEqStr v expectedId then seqIdGo rest (i + 1)
      else ["Story IDs should be sequential (expected " ++ expectedId ++
            ", got " ++ jsToStr v ++ ")"]

/-- The result object of the validator, with fields valid and errors. -/
structure ValResult where
  valid : Bool
  errors : List String
deriving DecidableEq

/-- Model of `validatePrdJson(prd)` from `src/lib/prd-utils.js`: top-level field
checks, per-story checks (skipped entirely when `userStories` is not an
array), then the two sequencing checks; `valid` is `errors.length === 0`.
Property reads on `null`/`undefined` throw (`Except.error`), as in
JavaScript. -/
def validatePrdJson (prd : JsVal) : Except Unit ValResult :=
  getField prd "project" >>= fun projV =>
  getField prd "branchName" >>= fun brV =>
  getField prd "description" >>= fun dV =>
  getField prd "userStories" >>= fun usV =>
  let e1 := if !truthy projV || jsTypeof projV != "string" then
      ["Missing or invalid \"project\" field"] else []
  let e2 := if !truthy brV || jsTypeof brV != "string" then
      ["Missing or invalid \"branchName\" field"]
    else if !startsWithRalph brV then
      ["branchName must start with \"ralph/\""]
    else []
  let e3 := if !truthy dV || jsTypeof dV != "string" then
      ["Missing or invalid \"description\" field"] else []
  match usV with
  | .arr stories =>
      mapExcept (fun p => validateStory p.1 p.2) stories.enum >>= fun storyErrLists =>
      mapExcept (fun s => getField s "priority") stories >>= fun prioritiesV =>
      mapExcept (fun s => getField s "id") stories >>= fun idsV =>
      let errors := e1 ++ e2 ++ e3 ++ storyErrLists.flatten ++
        seqPriorityGo (jsSortByNum prioritiesV) 0 ++ seqIdGo idsV 0
      .ok ⟨errors.isEmpty, errors⟩
  | _ =>
      let errors := e1 ++ e2 ++ e3 ++ ["Missing or invalid \"userStories\" array"]
      .ok ⟨errors.isEmpty, errors⟩

/-! ## Validator lemmas and theorems -/

theorem except_ok_bind {α β : Type} (a : α) (f : α → Except Unit β) :
    (Except.ok a >>= f : Except Unit β) = f a := rfl

theorem getField_ok (prd : JsVal) (k : String)
    (h1 : prd ≠ .null) (h2 : prd ≠ .undefined) :
    ∃ v, getField prd k = .ok v := by
  cases prd
  · exact absurd rfl h1
  · exact absurd rfl h2
  all_goals exact ⟨_, rfl⟩

theorem validateStory_ok (idx : Nat) (story : JsVal)
    (h1 : story ≠ .null) (h2 : story ≠ .undefined) :
    ∃ es, validateStory idx story = .ok es := by
  obtain ⟨v1, hv1⟩ := getField_ok story "id" h1 h2
  obtain ⟨v2, hv2⟩ := getField_ok story "title" h1 h2
  obtain ⟨v3, hv3⟩ := getField_ok story "description" h1 h2
  obtain ⟨v4, hv4⟩ := getField_ok story "acceptanceCriteria" h1 h2
  obtain ⟨v5, hv5⟩ := getField_ok story "priority" h1 h2
  obtain ⟨v6, hv6⟩ := getField_ok story "passes" h1 h2
  obtain ⟨v7, hv7⟩ := getField_ok story "notes" h1 h2
  simp only [validateStory, hv1, hv2, hv3, hv4, hv5, hv6, hv7, except_ok_bind]
  exact ⟨_, rfl⟩

theorem mapExcept_ok {α β : Type} (f : α → Except Unit β) (l : List α)
    (h : ∀ x ∈ l, ∃ y, f x = .ok y) : ∃ ys, mapExcept f l = .ok ys := by
  induction l with
  | nil => exact ⟨[], rfl⟩
  | cons a as ih =>
      obtain ⟨y, hy⟩ := h a (List.mem_cons_self a as)
      obtain ⟨ys, hys⟩ := ih fun x hx => h x (List.mem_cons_of_mem _ hx)
      exact ⟨y :: ys, by simp only [mapExcept, hy, hys, except_ok_bind]⟩

theorem snd_mem_of_mem_enumFrom {α : Type} (l : List α) :
    ∀ (n : Nat) (p : Nat × α), p ∈ List.enumFrom n l → p.2 ∈ l := by
  induction l with
  | nil => intro n p h; cases h
  | cons a as ih =>
      intro n p h
      rw [List.enumFrom] at h
      rcases List.mem_cons.mp h with rfl | h'
      · exact List.mem_cons_self a as
      · exact List.mem_cons_of_mem _ (ih (n + 1) p h')

/-- C2 (counterexample): on input `null`, the very first property read
`prd.project` raises a `TypeError`, so `validatePrdJson` does not return a
result object — refuting "returns a result object without raising an
exception for every input value, including null". -/
theorem c2_counterexample : validatePrdJson .null = .error () := rfl

/-- C2 (amended): for every input value other than `null` and `undefined`
such that, when its `userStories` field is an array, no element of that
array is `null` or `undefined`, `validatePrdJson` returns a result object
`{ valid, errors }` without raising, with `valid` set to `errors.length ===
0` — so `valid` is true exactly when the accumulated error list is empty. -/
theorem c2_validator_total (prd : JsVal)
    (h1 : prd ≠ .null) (h2 : prd ≠ .undefined)
    (h3 : ∀ l, getField prd "userStories" = .ok (.arr l) →
          ∀ v ∈ l, v ≠ .null ∧ v ≠ .undefined) :
    ∃ errs, validatePrdJson prd = .ok ⟨errs.isEmpty, errs⟩ ∧
      (errs.isEmpty = true ↔ errs = []) := by
  obtain ⟨pv, hp⟩ := getField_ok prd "project" h1 h2
  obtain ⟨bv, hb⟩ := getField_ok prd "branchName" h1 h2
  obtain ⟨dv, hd⟩ := getField_ok prd "description" h1 h2
  obtain ⟨uv, hu⟩ := getField_ok prd "userStories" h1 h2
  by_cases harr : ∃ l, uv = JsVal.arr l
  · obtain ⟨stories, rfl⟩ := harr
    have hels := h3 stories hu
    have hstory : ∀ p ∈ stories.enum, ∃ es, validateStory p.1 p.2 = .ok es := by
      intro p hmem
      have hsnd : p.2 ∈ stories := snd_mem_of_mem_enumFrom stories 0 p hmem
      exact validateStory_ok p.1 p.2 (hels p.2 hsnd).1 (hels p.2 hsnd).2
    obtain ⟨errLists, hErr⟩ := mapExcept_ok _ _ hstory
    obtain ⟨prios, hPrios⟩ := mapExcept_ok (fun s => getField s "priority") stories
      fun s hs => getField_ok s "priority" (hels s hs).1 (hels s hs).2
    obtain ⟨ids, hIds⟩ := mapExcept_ok (fun s => getField s "id") stories
      fun s hs => getField_ok s "id" (hels s hs).1 (hels s hs).2
    simp only [validatePrdJson, hp, hb, hd, hu, hErr, hPrios, hIds, except_ok_bind]
    exact ⟨_, rfl, List.isEmpty_iff⟩
  · simp only [validatePrdJson, hp, hb, hd, hu, except_ok_bind]
    cases uv <;>
      first
        | exact ⟨_, rfl, List.isEmpty_iff⟩
        | exact absurd ⟨_, rfl⟩ harr

/-- C2 (witness): the amended totality theorem at the concrete input
`{}` (the empty object). -/
theorem c2_validator_total_witness :
    ((.obj [] : JsVal) ≠ .null) ∧ ((.obj [] : JsVal) ≠ .undefined) ∧
    (∃ errs, validatePrdJson (.obj []) = .ok ⟨errs.isEmpty, errs⟩ ∧
      (errs.isEmpty = true ↔ errs = [])) :=
  ⟨fun h => JsVal.noConfusion h, fun h => JsVal.noConfusion h,
   c2_validator_total (.obj []) (fun h => JsVal.noConfusion h)
     (fun h => JsVal.noConfusion h)
     (fun _ h => JsVal.noConfusion (Except.ok.inj h))⟩

/-- A syntactically complete story record with the given `id` and
`priority`, used as concrete test input. -/
def mkStory (id : String) (pr : Int) : JsVal :=
  .obj [("id", .str id), ("title", .str "t"), ("description", .str "d"),
        ("acceptanceCriteria", .arr []), ("priority", .num pr),
        ("passes", .bool false), ("notes", .str "")]

/-- A task list with valid top-level fields and the given stories, used as
concrete test input. -/
def mkPrd (stories : List JsVal) : JsVal :=
  .obj [("project", .str "p"), ("branchName", .str "ralph/x"),
        ("description", .str "d"), ("userStories", .arr stories)]

/-- C7: the id-sequence and priority-sequence checks are independent and
each contributes at most one error at the first offending element: ids
`US-001, US-003` with priorities `1, 2` yield exactly the one id error; ids
`US-001, US-002` with priorities `1, 2` yield no error at all; priorities
`1, 3` with correct ids yield exactly the one priority error; and both error
messages mention "sequential". -/
theorem c7_sequential_checks_independent :
    validatePrdJson (mkPrd [mkStory "US-001" 1, mkStory "US-003" 2]) =
      .ok ⟨false, ["Story IDs should be sequential (expected US-002, got US-003)"]⟩ ∧
    validatePrdJson (mkPrd [mkStory "US-001" 1, mkStory "US-002" 2]) =
      .ok ⟨true, []⟩ ∧
    validatePrdJson (mkPrd [mkStory "US-001" 1, mkStory "US-002" 3]) =
      .ok ⟨false, ["Priority numbers should be sequential starting from 1"]⟩ ∧
    strContains "Story IDs should be sequential (expected US-002, got US-003)"
      "sequential" = true ∧
    strContains "Priority numbers should be sequential starting from 1"
      "sequential" = true :=
  ⟨rfl, rfl, rfl, by decide, by decide⟩

/-- C8: for an object missing `project`, `branchName` and `description`
whose `userStories` is not an array, the validator reports exactly the four
top-level errors, in source order, and skips per-story and sequencing checks
entirely. -/
theorem c8_four_top_level_errors (fields : List (String × JsVal))
    (hp : fields.lookup "project" = none)
    (hb : fields.lookup "branchName" = none)
    (hd : fields.lookup "description" = none)
    (hu : fields.lookup "userStories" = none ∨
          ∃ v, fields.lookup "userStories" = some v ∧ ∀ l, v ≠ JsVal.arr l) :
    validatePrdJson (.obj fields) =
      .ok ⟨false, ["Missing or invalid \"project\" field",
                   "Missing or invalid \"branchName\" field",
                   "Missing or invalid \"description\" field",
                   "Missing or invalid \"userStories\" array"]⟩ := by
  have hgp : getField (.obj fields) "project" = .ok .undefined := by
    simp [getField, hp]
  have hgb : getField (.obj fields) "branchName" = .ok .undefined := by
    simp [getField, hb]
  have hgd : getField (.obj fields) "description" = .ok .undefined := by
    simp [getField, hd]
  obtain ⟨uval, hgu, hnot⟩ :
      ∃ v, getField (.obj fields) "userStories" = .ok v ∧ ∀ l, v ≠ JsVal.arr l := by
    rcases hu with hnone | ⟨v, hv, hnot⟩
    · exact ⟨.undefined, by simp [getField, hnone], fun _ h => JsVal.noConfusion h⟩
    · exact ⟨v, by simp [getField, hv], hnot⟩
  simp only [validatePrdJson, hgp, hgb, hgd, hgu, except_ok_bind]
  rfl

/-- C8 (witness): the four-error theorem at the concrete input `{}`. -/
theorem c8_four_top_level_errors_witness :
    ([] : List (String × JsVal)).lookup "project" = none ∧
    ([] : List (String × JsVal)).lookup "branchName" = none ∧
    ([] : List (String × JsVal)).lookup "description" = none ∧
    ([] : List (String × JsVal)).lookup "userStories" = none ∧
    validatePrdJson (.obj []) =
      .ok ⟨false, ["Missing or invalid \"project\" field",
                   "Missing or invalid \"branchName\" field",
                   "Missing or invalid \"description\" field",
                   "Missing or invalid \"userStories\" array"]⟩ :=
  ⟨rfl, rfl, rfl, rfl,
   c8_four_top_level_errors [] rfl rfl rfl (Or.inl rfl)⟩

/-! ## Agent-loop driver (`src/lib/core.js`, `runAgentLoop`)

The subprocess collaborator is abstracted as a function `outputs : Nat →
String` giving the combined output text of the `i`-th invocation (the code
sends the same prompt-template contents every iteration and only inspects
the collected output text, never the exit code).  The per-iteration and
on-complete callbacks have their return values ignored by the source, so
the model records their invocations in a trace. -/

/-- Observable outcome of `runAgentLoop`: the returned boolean, the number
of subprocess invocations, and the callback invocation traces. -/
structure LoopResult where
  success : Bool
  calls : Nat
  onIterationCalls : List (Nat × Nat)
  onCompleteCalls : List Nat
deriving DecidableEq

/-- The iteration loop body of `runAgentLoop`, over the list of remaining
iteration indices: invoke `onIteration(i, maxIterations)`, run the
subprocess, test the output for the completion marker with
`output.includes(...)`, and either return success (invoking `onComplete(i)`)
or continue; an exhausted index list returns failure. -/
def runLoopAux (outputs : Nat → String) (maxI : Nat) : List Nat → LoopResult
  | [] => ⟨false, 0, [], []⟩
  | i :: rest =>
      if strContains (outputs i) COMPLETION_SIGNAL then
        ⟨true, 1, [(i, maxI)], [i]⟩
      else
        let r := runLoopAux outputs maxI rest
        ⟨r.success, r.calls + 1, (i, maxI) :: r.onIterationCalls, r.onCompleteCalls⟩

/-- Model of `runAgentLoop(config, options)`: the `for (let i = 1; i <=
maxIterations; i++)` loop. -/
def runAgentLoop (outputs : Nat → String) (maxI : Nat) : LoopResult :=
  runLoopAux outputs maxI (List.range' 1 maxI)

theorem runLoopAux_no_marker (outputs : Nat → String) (maxI : Nat)
    (l : List Nat)
    (h : ∀ j ∈ l, strContains (outputs j) COMPLETION_SIGNAL = false) :
    runLoopAux outputs maxI l =
      ⟨false, l.length, l.map (fun j => (j, maxI)), []⟩ := by
  induction l with
  | nil => rfl
  | cons i rest ih =>
      have hi := h i (List.mem_cons_self i rest)
      rw [runLoopAux, if_neg (by simp [hi]),
        ih fun j hj => h j (List.mem_cons_of_mem _ hj)]
      rfl

theorem runLoopAux_marker (outputs : Nat → String) (maxI : Nat)
    (l1 : List Nat) (i : Nat) (l2 : List Nat)
    (h1 : ∀ j ∈ l1, strContains (outputs j) COMPLETION_SIGNAL = false)
    (hi : strContains (outputs i) COMPLETION_SIGNAL = true) :
    runLoopAux outputs maxI (l1 ++ i :: l2) =
      ⟨true, l1.length + 1, (l1 ++ [i]).map (fun j => (j, maxI)), [i]⟩ := by
  induction l1 with
  | nil => simp [runLoopAux, hi]
  | cons a as ih =>
      have ha := h1 a (List.mem_cons_self a as)
      rw [List.cons_append, runLoopAux, if_neg (by simp [ha]),
        ih fun j hj => h1 j (List.mem_cons_of_mem _ hj)]
      rfl

/-- C3: for `N ≥ 1` and any sequence of subprocess outputs — if the first
output containing the completion marker occurs at iteration `i ≤ N`, the
loop makes exactly `i` subprocess invocations, has invoked the per-iteration
callback with `(j, N)` before each of them, invokes the on-complete callback
exactly once with `i`, and returns success; if none of the first `N` outputs
contains the marker, it makes exactly `N` invocations and returns failure
(outcomes are a function of the outputs alone: callback return values are
ignored by the source, so they cannot affect control flow). -/
theorem c3_agent_loop (N : Nat) (hN : 1 ≤ N) (outputs : Nat → String) :
    (∀ i, 1 ≤ i → i ≤ N →
      strContains (outputs i) COMPLETION_SIGNAL = true →
      (∀ j, 1 ≤ j → j < i → strContains (outputs j) COMPLETION_SIGNAL = false) →
      runAgentLoop outputs N =
        ⟨true, i, (List.range' 1 i).map (fun j => (j, N)), [i]⟩) ∧
    ((∀ j, 1 ≤ j → j ≤ N → strContains (outputs j) COMPLETION_SIGNAL = false) →
      runAgentLoop outputs N =
        ⟨false, N, (List.range' 1 N).map (fun j => (j, N)), []⟩) := by
  constructor
  · intro i hi1 hiN hmark hbefore
    have hsplit : List.range' 1 N =
        List.range' 1 (i - 1) ++ i :: List.range' (i + 1) (N - i) := by
      have e1 := List.range'_append_1 1 (i - 1) (N - i + 1)
      rw [show 1 + (i - 1) = i from by omega,
        show (N - i + 1) + (i - 1) = N from by omega,
        List.range'_succ i (N - i) 1] at e1
      exact e1.symm
    have h1 : ∀ j ∈ List.range' 1 (i - 1),
        strContains (outputs j) COMPLETION_SIGNAL = false := by
      intro j hj
      obtain ⟨k, hk, rfl⟩ := List.mem_range'.mp hj
      exact hbefore _ (by omega) (by omega)
    have e6 : List.range' 1 (i - 1) ++ [i] = List.range' 1 i := by
      have e7 := List.range'_1_concat 1 (i - 1)
      rw [show 1 + (i - 1) = i from by omega,
        show (i - 1) + 1 = i from by omega] at e7
      exact e7.symm
    rw [runAgentLoop, hsplit, runLoopAux_marker outputs N _ i _ h1 hmark, e6]
    simp only [List.length_range', LoopResult.mk.injEq]
    exact ⟨trivial, by omega, trivial, trivial⟩
  · intro h
    rw [runAgentLoop, runLoopAux_no_marker outputs N _ fun j hj => by
      obtain ⟨k, hk, rfl⟩ := List.mem_range'.mp hj
      exact h _ (by omega) (by omega)]
    rw [List.length_range']

/-- C3 (witness): the agent-loop theorem applied to a subprocess stub whose
output contains the marker exactly on iteration 2, with `maxIterations = 3`:
exactly 2 invocations, on-complete called with 2, success. -/
theorem c3_agent_loop_witness :
    1 ≤ 3 ∧
    runAgentLoop
      (fun i => if i = 2 then "x<promise>COMPLETE</promise>y" else "no marker") 3 =
      ⟨true, 2, [(1, 3), (2, 3)], [2]⟩ :=
  ⟨by decide,
   (c3_agent_loop 3 (by decide)
       (fun i => if i = 2 then "x<promise>COMPLETE</promise>y" else "no marker")).1
     2 (by decide) (by decide) (by decide)
     (fun j h1 h2 => by
       have hj : j = 1 := by omega
       subst hj
       decide)⟩

/-! ## Argument parser (`src/lib/prd-utils.js`, `parseArgs`) -/

/-- The record returned by `parseArgs`; `maxIterations = none` models the
`NaN` that `parseInt` yields on a non-numeric token. -/
structure ParsedArgs where
  inputFile : Option String
  maxIterations : Option Int
deriving DecidableEq

def isDigitB (c : Char) : Bool :=
  48 ≤ c.toNat && c.toNat ≤ 57

def digitsAcc : List Char → Nat → Nat
  | [], acc => acc
  | c :: rest, acc =>
      if isDigitB c then digitsAcc rest (acc * 10 + (c.toNat - 48)) else acc

def hasLeadingDigit : List Char → Bool
  | [] => false
  | c :: _ => isDigitB c

/-- Model of `parseInt(s, 10)`: skip leading whitespace, optional sign, then the
longest digit prefix (trailing garbage ignored); `NaN` (`none`) when no
digit follows. -/
def parseIntJs (s : String) : Option Int :=
  let t := s.data.dropWhile fun c => c == ' ' || c == '\t' || c == '\n' || c == '\r'
  match t with
  | '-' :: rest =>
      if hasLeadingDigit rest then some (-(digitsAcc rest 0 : Int)) else none
  | '+' :: rest =>
      if hasLeadingDigit rest then some ((digitsAcc rest 0 : Int)) else none
  | _ => if hasLeadingDigit t then some ((digitsAcc t 0 : Int)) else none

/-- The `for` loop of `parseArgs`: `--max-iterations` followed by a truthy
(non-empty) token consumes that token as the new count; any other token not
starting with `--` becomes the input file (last one wins); tokens starting
with `--` are skipped on their own. -/
def parseArgsGo : List String → Option String → Option Int → ParsedArgs
  | [], f, m => ⟨f, m⟩
  | [a], f, m =>
      if !(strStartsWith a "--") then ⟨some a, m⟩ else ⟨f, m⟩
  | a :: b :: rest, f, m =>
      if a == "--max-iterations" && b != "" then
        parseArgsGo rest f (parseIntJs b)
      else if !(strStartsWith a "--") then
        parseArgsGo (b :: rest) (some a) m
      else
        parseArgsGo (b :: rest) f m

/-- Model of `parseArgs(args)` from `src/lib/prd-utils.js` (the `claude-all.js` copy
runs the identical loop over `process.argv.slice(2)`). -/
def parseArgs (args : List String) : ParsedArgs :=
  parseArgsGo args none (some 10)

/-- C9: `parseArgs([])` yields no input file and the default count 10;
`["a.md", "--max-iterations", "5"]` yields `a.md` and 5; the flag works in
either position; and an unrecognized `--foo` is skipped on its own, leaving
the following token to be taken as the input file. -/
theorem c9_parse_args :
    parseArgs [] = ⟨none, some 10⟩ ∧
    parseArgs ["a.md", "--max-iterations", "5"] = ⟨some "a.md", some 5⟩ ∧
    parseArgs ["--max-iterations", "5", "a.md"] = ⟨some "a.md", some 5⟩ ∧
    parseArgs ["--foo", "a.md"] = ⟨some "a.md", some 10⟩ := by
  refine ⟨rfl, by decide, by decide, by decide⟩

/-! ## `JSON.parse` model

An executable recursive-descent JSON parser.  Restrictions (documented
model boundaries, none of which is exercised by the task-list schema, whose
numeric values are small non-negative integers): numbers are integers (no
fraction or exponent part — such inputs are outside the model); string
escapes cover the JSON escapes the data of this repository uses; recursion
is fuel-bounded by twice the input length, which dominates the recursion
depth of the parser. -/

def jsonWs (c : Char) : Bool :=
  c == ' ' || c == '\t' || c == '\n' || c == '\r'

/-- Body of a JSON string after the opening quote; returns the decoded
string and the remainder after the closing quote. -/
def parseStrChars : List Char → List Char → Option (String × List Char)
  | [], _ => none
  | '"' :: rest, acc => some (⟨acc.reverse⟩, rest)
  | '\\' :: c :: rest, acc =>
      if c == '"' then parseStrChars rest ('"' :: acc)
      else if c == '\\' then parseStrChars rest ('\\' :: acc)
      else if c == '/' then parseStrChars rest ('/' :: acc)
      else if c == 'n' then parseStrChars rest ('\n' :: acc)
      else if c == 't' then parseStrChars rest ('\t' :: acc)
      else if c == 'r' then parseStrChars rest ('\r' :: acc)
      else none
  | c :: rest, acc => parseStrChars rest (c :: acc)

/-- A non-negative integer numeral: the longest digit prefix; fails when
the remainder starts a fraction or exponent (outside the model). -/
def parseNumChars (cs : List Char) : Option (Nat × List Char) :=
  let ds := cs.takeWhile isDigitB
  let rest := cs.drop ds.length
  if ds.isEmpty then none
  else
    match rest with
    | '.' :: _ => none
    | 'e' :: _ => none
    | 'E' :: _ => none
    | _ => some (digitsAcc ds 0, rest)

/-- Parser mode: a top-level value, the element loop of an array, or the
field loop of an object. -/
inductive PMode where
  | val : PMode
  | arrElems : List JsVal → PMode
  | objFields : List (String × JsVal) → PMode

/-- One fuel-bounded parsing function covering values, array-element loops
and object-field loops (a single structural recursion on fuel, so that it
reduces definitionally on concrete inputs). -/
def parseP : Nat → PMode → List Char → Option (JsVal × List Char)
  | 0, _, _ => none
  | fuel + 1, .val, cs =>
      match cs.dropWhile jsonWs with
      | '{' :: rest =>
          (match rest.dropWhile jsonWs with
           | '}' :: rest2 => some (.obj [], rest2)
           | rest2 => parseP fuel (.objFields []) rest2)
      | '[' :: rest =>
          (match rest.dropWhile jsonWs with
           | ']' :: rest2 => some (.arr [], rest2)
           | rest2 => parseP fuel (.arrElems []) rest2)
      | '"' :: rest =>
          (match parseStrChars rest [] with
           | some (s, r) => some (.str s, r)
           | none => none)
      | 't' :: 'r' :: 'u' :: 'e' :: rest => some (.bool true, rest)
      | 'f' :: 'a' :: 'l' :: 's' :: 'e' :: rest => some (.bool false, rest)
      | 'n' :: 'u' :: 'l' :: 'l' :: rest => some (.null, rest)
      | '-' :: rest =>
          (match parseNumChars rest with
           | some (n, r) => some (.num (-(n : Int)), r)
           | none => none)
      | rest =>
          (match parseNumChars rest with
           | some (n, r) => some (.num (n : Int), r)
           | none => none)
  | fuel + 1, .arrElems acc, cs =>
      (match parseP fuel .val cs with
       | none => none
       | some (v, r) =>
           match r.dropWhile jsonWs with
           | ',' :: r2 => parseP fuel (.arrElems (acc ++ [v])) r2
           | ']' :: r2 => some (.arr (acc ++ [v]), r2)
           | _ => none)
  | fuel + 1, .objFields acc, cs =>
      (match cs.dropWhile jsonWs with
       | '"' :: r =>
           (match parseStrChars r [] with
            | none => none
            | some (k, r2) =>
                match r2.dropWhile jsonWs with
                | ':' :: r3 =>
                    (match parseP fuel .val r3 with
                     | none => none
                     | some (v, r4) =>
                         match r4.dropWhile jsonWs with
                         | ',' :: r5 => parseP fuel (.objFields (acc ++ [(k, v)])) r5
                         | '}' :: r5 => some (.obj (acc ++ [(k, v)]), r5)
                         | _ => none)
                | _ => none)
       | _ => none)

/-- Model of `JSON.parse(s)`, returning `none` where the original throws a
`SyntaxError` (all call sites wrap the call in `try`/`catch`). -/
def jsonParse (s : String) : Option JsVal :=
  match parseP (2 * s.data.length + 4) .val s.data with
  | some (v, rest) => if (rest.dropWhile jsonWs).isEmpty then some v else none
  | none => none

/-! ## File-system model -/

/-- A file system: a partial map from path strings to file contents
(directories are not modelled; `mkdirSync` is recorded as an effect but
reads never consult directories). -/
abbrev FileSys := String → Option String

/-- Model of `hasPrdJson(prdFile)` from `core.js`: the file exists and its
content parses. -/
def hasPrdJson (fsys : FileSys) (prdFile : String) : Bool :=
  match fsys prdFile with
  | none => false
  | some content => (jsonParse content).isSome

/-! ## Task-list status reader (`src/lib/core.js`, `hasIncompleteStories`) -/

/-- The status object; the field `exists_` renders the source field
`exists` (a Lean keyword); `projectName` is a `JsVal` since the `||`
fallback chain can produce any truthy value, with `.null` for the all-false
result. -/
structure StoriesStatus where
  exists_ : Bool
  incomplete : Bool
  total : Nat
  remaining : Nat
  completed : Nat
  projectName : JsVal

/-- The all-false/zero/null result returned for a missing, unreadable or
unparseable task list. -/
def zeroStatus : StoriesStatus :=
  ⟨false, false, 0, 0, 0, .null⟩

/-- Property read defaulting to `undefined` instead of throwing; used to
express, on the spec side, "the `passes` field of the story". -/
def getFieldD (s : JsVal) (k : String) : JsVal :=
  match getField s k with
  | .ok v => v
  | .error _ => .undefined

/-- The predicate: the `passes` field of the story is strictly equal to
`false`. -/
def storyPassesFalse (s : JsVal) : Bool :=
  strictEqFalse (getFieldD s "passes")

/-- The body of the `try` block of `hasIncompleteStories` after parsing:
`stories = prd.userStories || []`, `stories.filter(s => s.passes ===
false)`, and the result fields that can throw — `.filter` on a truthy
non-array and property access on `null`/`undefined` elements raise
`TypeError` (`Except.error`), landing in the enclosing `catch`. -/
def countIncomplete (prd : JsVal) : Except Unit (Nat × Nat × JsVal) :=
  getField prd "userStories" >>= fun usV =>
  let stories := if truthy usV then usV else JsVal.arr []
  match stories with
  | .arr l =>
      mapExcept (fun s => getField s "passes") l >>= fun passesVals =>
      getField prd "project" >>= fun projV =>
      getField prd "branchName" >>= fun brV =>
      .ok (l.length, (passesVals.filter strictEqFalse).length,
        if truthy projV then projV
        else if truthy brV then brV
        else .str "Unknown")
  | _ => .error ()

/-- Model of `hasIncompleteStories(prdFile)` from `src/lib/core.js`: the all-zero
object when `hasPrdJson` fails or anything in the `try` block throws;
otherwise existence plus completion statistics. -/
def hasIncompleteStories (fsys : FileSys) (prdFile : String) : StoriesStatus :=
  if hasPrdJson fsys prdFile then
    match fsys prdFile with
    | some content =>
        match jsonParse content with
        | some prd =>
            match countIncomplete prd with
            | .ok (total, remaining, name) =>
                ⟨true, decide (0 < remaining), total, remaining,
                 total - remaining, name⟩
            | .error _ => zeroStatus
        | none => zeroStatus
    | none => zeroStatus
  else zeroStatus

theorem getField_nn (s : JsVal) (k : String)
    (h1 : s ≠ .null) (h2 : s ≠ .undefined) :
    getField s k = .ok (getFieldD s k) := by
  cases s
  · exact absurd rfl h1
  · exact absurd rfl h2
  all_goals rfl

theorem mapExcept_eq_ok_map {α β : Type} (f : α → Except Unit β) (g : α → β)
    (l : List α) (h : ∀ x ∈ l, f x = .ok (g x)) :
    mapExcept f l = .ok (l.map g) := by
  induction l with
  | nil => rfl
  | cons a as ih =>
      rw [mapExcept, h a (List.mem_cons_self a as), except_ok_bind,
        ih fun x hx => h x (List.mem_cons_of_mem _ hx), except_ok_bind,
        List.map_cons]

/-- C5: a missing task-list file and a file whose content does not parse
produce the identical all-false/zero/null status object. -/
theorem c5_status_missing_equals_corrupt (fsys : FileSys) (p : String) :
    (fsys p = none → hasIncompleteStories fsys p = zeroStatus) ∧
    (∀ c, fsys p = some c → jsonParse c = none →
      hasIncompleteStories fsys p = zeroStatus) ∧
    (∀ (fsys2 : FileSys) (p2 : String) c, fsys p = none → fsys2 p2 = some c →
      jsonParse c = none →
      hasIncompleteStories fsys p = hasIncompleteStories fsys2 p2) := by
  have miss : ∀ (g : FileSys) q, g q = none →
      hasIncompleteStories g q = zeroStatus := by
    intro g q h
    simp [hasIncompleteStories, hasPrdJson, h]
  have corr : ∀ (g : FileSys) q c, g q = some c → jsonParse c = none →
      hasIncompleteStories g q = zeroStatus := by
    intro g q c h hc
    simp [hasIncompleteStories, hasPrdJson, h, hc]
  exact ⟨miss fsys p, fun c h hc => corr fsys p c h hc,
    fun f2 p2 c h1 h2 h3 => (miss fsys p h1).trans (corr f2 p2 c h2 h3).symm⟩

/-- C5 (witness): a missing file and the concrete corrupt content
`"not valid json"` yield equal status objects. -/
theorem c5_status_witness :
    ((fun _ => none : FileSys) "f" = none) ∧
    ((fun _ => some "not valid json" : FileSys) "g" = some "not valid json") ∧
    jsonParse "not valid json" = none ∧
    hasIncompleteStories (fun _ => none) "f" =
      hasIncompleteStories (fun _ => some "not valid json") "g" :=
  ⟨rfl, rfl, rfl,
   (c5_status_missing_equals_corrupt (fun _ => none) "f").2.2
     (fun _ => some "not valid json") "g" "not valid json" rfl rfl rfl⟩

theorem filter_passes_len (l : List JsVal) :
    ((l.map fun s => getFieldD s "passes").filter strictEqFalse).length =
      (l.filter storyPassesFalse).length := by
  induction l with
  | nil => rfl
  | cons a as ih =>
      simp only [List.map_cons, List.filter_cons]
      rw [show strictEqFalse (getFieldD a "passes") = storyPassesFalse a from rfl]
      cases storyPassesFalse a <;> simp [ih]

/-- C6: for a present and parseable task list — `userStories` an array when
truthy, else treated as empty; story elements story-shaped (not
`null`/`undefined`) — `remaining` counts exactly the stories whose `passes`
field is strictly `false`, `total` is the story count, `completed = total -
remaining`, `incomplete = (remaining > 0)`, and `projectName` falls back
from `project` to `branchName` to `"Unknown"`. -/
theorem c6_completion_counting (fsys : FileSys) (p c : String)
    (prd usV projV brV : JsVal) (stories : List JsVal)
    (hc : fsys p = some c) (hparse : jsonParse c = some prd)
    (husV : getField prd "userStories" = .ok usV)
    (harr : (truthy usV = true ∧ usV = .arr stories) ∨
            (truthy usV = false ∧ stories = []))
    (hels : ∀ v ∈ stories, v ≠ .null ∧ v ≠ .undefined)
    (hproj : getField prd "project" = .ok projV)
    (hbr : getField prd "branchName" = .ok brV) :
    hasIncompleteStories fsys p =
      ⟨true, decide (0 < (stories.filter storyPassesFalse).length),
       stories.length, (stories.filter storyPassesFalse).length,
       stories.length - (stories.filter storyPassesFalse).length,
       if truthy projV then projV
       else if truthy brV then brV
       else .str "Unknown"⟩ := by
  have hexists : hasPrdJson fsys p = true := by
    simp [hasPrdJson, hc, hparse]
  have hcount : countIncomplete prd =
      .ok (stories.length, (stories.filter storyPassesFalse).length,
        if truthy projV then projV
        else if truthy brV then brV
        else .str "Unknown") := by
    rcases harr with ⟨ht, rfl⟩ | ⟨hf, rfl⟩
    · have hmap : mapExcept (fun s => getField s "passes") stories =
          .ok (stories.map fun s => getFieldD s "passes") :=
        mapExcept_eq_ok_map _ _ _ fun s hs =>
          getField_nn s "passes" (hels s hs).1 (hels s hs).2
      simp only [countIncomplete, husV, except_ok_bind, truthy, if_true,
        hmap, hproj, hbr]
      rw [filter_passes_len]
    · simp only [countIncomplete, husV, except_ok_bind, hf,
        Bool.false_eq_true, if_false, mapExcept, hproj, hbr]
      rfl
  simp only [hasIncompleteStories, hexists, if_true, hc, hparse, hcount]

/-- C6 (witness): the completion-counting theorem at a concrete 3-story
file with `passes` values `[true, false, false]`: total 3, completed 1,
remaining 2, incomplete true, project name `"p"`. -/
theorem c6_completion_counting_witness :
    jsonParse "\x7b\"project\": \"p\", \"userStories\": [\x7b\"passes\": true\x7d, \x7b\"passes\": false\x7d, \x7b\"passes\": false\x7d]\x7d" =
      some (.obj [("project", .str "p"),
        ("userStories", .arr [.obj [("passes", .bool true)],
          .obj [("passes", .bool false)], .obj [("passes", .bool false)]])]) ∧
    hasIncompleteStories
      (fun q => if q = "w/output/prd.json"
        then some "\x7b\"project\": \"p\", \"userStories\": [\x7b\"passes\": true\x7d, \x7b\"passes\": false\x7d, \x7b\"passes\": false\x7d]\x7d"
        else none)
      "w/output/prd.json" =
      ⟨true, true, 3, 2, 1, .str "p"⟩ :=
  ⟨rfl,
   c6_completion_counting _ "w/output/prd.json" _
     (.obj [("project", .str "p"),
       ("userStories", .arr [.obj [("passes", .bool true)],
         .obj [("passes", .bool false)], .obj [("passes", .bool false)]])])
     (.arr [.obj [("passes", .bool true)],
       .obj [("passes", .bool false)], .obj [("passes", .bool false)]])
     (.str "p") .undefined
     [.obj [("passes", .bool true)],
      .obj [("passes", .bool false)], .obj [("passes", .bool false)]]
     rfl rfl rfl (Or.inl ⟨rfl, rfl⟩)
     (by
       intro v hv
       simp only [List.mem_cons, List.not_mem_nil, or_false] at hv
       rcases hv with rfl | rfl | rfl <;>
         exact ⟨fun h => JsVal.noConfusion h, fun h => JsVal.noConfusion h⟩)
     rfl rfl⟩

/-- C10: a file that exists and parses into an object whose `userStories`
field is truthy but not an array yields the all-false status object —
`exists` is reported `false` although the file exists and parses, because
the `TypeError` from `.filter` lands in the same `catch` as a corrupt
file. -/
theorem c10_truthy_non_array_collapses (fsys : FileSys) (p c : String)
    (prd usV : JsVal)
    (hc : fsys p = some c) (hparse : jsonParse c = some prd)
    (husV : getField prd "userStories" = .ok usV)
    (htru : truthy usV = true) (hnotarr : ∀ l, usV ≠ .arr l) :
    hasIncompleteStories fsys p = zeroStatus := by
  have hexists : hasPrdJson fsys p = true := by
    simp [hasPrdJson, hc, hparse]
  have hcount : countIncomplete prd = .error () := by
    simp only [countIncomplete, husV, except_ok_bind, htru, if_true]
  simp only [hasIncompleteStories, hexists, if_true, hc, hparse, hcount]

/-- C10 (witness): the concrete file content `{"userStories": "x"}` (a
truthy non-array) collapses to the all-false status object. -/
theorem c10_truthy_non_array_witness :
    jsonParse "\x7b\"userStories\": \"x\"\x7d" =
      some (.obj [("userStories", .str "x")]) ∧
    truthy (.str "x") = true ∧
    hasIncompleteStories
      (fun q => if q = "w/output/prd.json"
        then some "\x7b\"userStories\": \"x\"\x7d" else none)
      "w/output/prd.json" = zeroStatus :=
  ⟨rfl, rfl,
   c10_truthy_non_array_collapses _ "w/output/prd.json" _
     (.obj [("userStories", .str "x")]) (.str "x")
     rfl rfl rfl rfl (fun _ h => nomatch h)⟩

/-! ## Run archiver (`src/lib/core.js`, `archivePreviousRun`) -/

/-- A file-system mutation performed by the archiver, in execution order. -/
inductive FsEffect where
  | mkdir : String → FsEffect
  | copy : String → String → FsEffect
  | write : String → String → FsEffect
deriving DecidableEq

/-- Model of the regex replace stripping one leading `ralph/` from the
previous branch name. -/
def stripRalph (s : String) : String :=
  if strStartsWith s "ralph/" then ⟨s.data.drop 6⟩ else s

/-- Model of `String.prototype.trim` (over the whitespace characters the
data of this program can contain). -/
def jsTrim (s : String) : String :=
  ⟨((s.data.dropWhile jsonWs).reverse.dropWhile jsonWs).reverse⟩

/-- The fresh progress-log header `# Ralph Progress Log\nStarted:
<ISO timestamp>\n---\n`. -/
def progressHeader (nowIso : String) : String :=
  "# Ralph Progress Log\nStarted: " ++ nowIso ++ "\n---\n"

/-- Model of `archivePreviousRun(config)` from `src/lib/core.js`, as the ordered list
of file-system mutations it performs (the current date and ISO timestamp
are inputs; every internal throw — parse failure, property access on a
non-object — is swallowed by the `catch`, yielding no mutations). -/
def archivePreviousRun (fsys : FileSys) (cfg : Config)
    (today nowIso : String) : List FsEffect :=
  match fsys cfg.PRD_FILE, fsys cfg.LAST_BRANCH_FILE with
  | some prdContent, some _ =>
      (match jsonParse prdContent with
       | none => []
       | some prd =>
           match getField prd "branchName" with
           | .error _ => []
           | .ok brV =>
               let currentBranch := if truthy brV then brV else JsVal.str ""
               let lastBranch :=
                 jsTrim ((fsys cfg.LAST_BRANCH_FILE).getD "")
               if truthy currentBranch && lastBranch != "" &&
                   !strictEqStr currentBranch lastBranch then
                 let archiveFolder :=
                   pathJoin cfg.ARCHIVE_DIR (today ++ "-" ++ stripRalph lastBranch)
                 [FsEffect.mkdir archiveFolder] ++
                 (if (fsys cfg.PRD_FILE).isSome then
                   [FsEffect.copy cfg.PRD_FILE (pathJoin archiveFolder "prd.json")]
                  else []) ++
                 (if (fsys cfg.PROGRESS_FILE).isSome then
                   [FsEffect.copy cfg.PROGRESS_FILE
                     (pathJoin archiveFolder "progress.txt")]
                  else []) ++
                 [FsEffect.write cfg.PROGRESS_FILE (progressHeader nowIso)]
               else [])
  | _, _ => []

/-- C4: the archiver performs zero mutations (and swallows every error)
when the branch-tracking file or the task list is absent, the task list
fails to parse, either branch name is empty, or both branch names agree;
when both files exist, the task list parses to a `branchName` string `bn ≠
""`, and the tracked branch trims to `lb ≠ ""` with `bn ≠ lb`, it creates
`<ARCHIVE_DIR>/<today>-<lb stripped of "ralph/">`, copies the current task
list (and the progress log, when present) into it, and then overwrites the
progress log with a fresh header — in exactly that order. -/
theorem c4_archiver (fsys : FileSys) (cfg : Config) (today nowIso : String) :
    (fsys cfg.LAST_BRANCH_FILE = none →
      archivePreviousRun fsys cfg today nowIso = []) ∧
    (fsys cfg.PRD_FILE = none →
      archivePreviousRun fsys cfg today nowIso = []) ∧
    (∀ c, fsys cfg.PRD_FILE = some c → jsonParse c = none →
      archivePreviousRun fsys cfg today nowIso = []) ∧
    (∀ c prd brV, fsys cfg.PRD_FILE = some c → jsonParse c = some prd →
      getField prd "branchName" = .ok brV → truthy brV = false →
      archivePreviousRun fsys cfg today nowIso = []) ∧
    (∀ c lc prd brV, fsys cfg.PRD_FILE = some c →
      fsys cfg.LAST_BRANCH_FILE = some lc → jsonParse c = some prd →
      getField prd "branchName" = .ok brV → jsTrim lc = "" →
      archivePreviousRun fsys cfg today nowIso = []) ∧
    (∀ c lc prd bn, fsys cfg.PRD_FILE = some c →
      fsys cfg.LAST_BRANCH_FILE = some lc → jsonParse c = some prd →
      getField prd "branchName" = .ok (.str bn) → bn = jsTrim lc →
      archivePreviousRun fsys cfg today nowIso = []) ∧
    (∀ c lc prd bn, fsys cfg.PRD_FILE = some c →
      fsys cfg.LAST_BRANCH_FILE = some lc → jsonParse c = some prd →
      getField prd "branchName" = .ok (.str bn) → bn ≠ "" →
      jsTrim lc ≠ "" → bn ≠ jsTrim lc →
      archivePreviousRun fsys cfg today nowIso =
        [FsEffect.mkdir (pathJoin cfg.ARCHIVE_DIR
            (today ++ "-" ++ stripRalph (jsTrim lc))),
         FsEffect.copy cfg.PRD_FILE
           (pathJoin (pathJoin cfg.ARCHIVE_DIR
             (today ++ "-" ++ stripRalph (jsTrim lc))) "prd.json")] ++
        (if (fsys cfg.PROGRESS_FILE).isSome then
          [FsEffect.copy cfg.PROGRESS_FILE
            (pathJoin (pathJoin cfg.ARCHIVE_DIR
              (today ++ "-" ++ stripRalph (jsTrim lc))) "progress.txt")]
         else []) ++
        [FsEffect.write cfg.PROGRESS_FILE (progressHeader nowIso)]) := by
  refine ⟨?_, ?_, ?_, ?_, ?_, ?_, ?_⟩
  · intro h
    cases hp : fsys cfg.PRD_FILE <;> simp [archivePreviousRun, hp, h]
  · intro h
    simp [archivePreviousRun, h]
  · intro c hc hparse
    cases hl : fsys cfg.LAST_BRANCH_FILE <;>
      simp [archivePreviousRun, hc, hl, hparse]
  · intro c prd brV hc hparse hbr hfalse
    cases hl : fsys cfg.LAST_BRANCH_FILE
    · simp [archivePreviousRun, hc, hl]
    · simp [archivePreviousRun, hc, hl, hparse, hbr, hfalse]
      intro h1
      exact absurd h1 (by decide)
  · intro c lc prd brV hc hl hparse hbr htrim
    simp [archivePreviousRun, hc, hl, hparse, hbr, htrim]
  · intro c lc prd bn hc hl hparse hbr heq
    subst heq
    by_cases hne : jsTrim lc = ""
    · simp [archivePreviousRun, hc, hl, hparse, hbr, hne]
    · have ht : truthy (JsVal.str (jsTrim lc)) = true := by
        simp only [truthy, bne_iff_ne, ne_eq, decide_eq_true_eq]
        exact hne
      simp [archivePreviousRun, hc, hl, hparse, hbr, ht, strictEqStr]
  · intro c lc prd bn hc hl hparse hbr hbn htrim hne
    simp only [archivePreviousRun, hc, hl, hparse, hbr, Option.getD_some]
    rw [if_pos]
    · simp [hc]
    · simp [truthy, strictEqStr, hbn, htrim, hne]

/-- A concrete file system for the archiver witness: a task list on branch
`ralph/b`, a tracking file recording `ralph/a`, and an existing progress
log, laid out under the working root `"w"`. -/
def archFs : FileSys := fun q =>
  if q = "w/output/prd.json" then some "\x7b\"branchName\": \"ralph/b\"\x7d"
  else if q = "w/output/.last-branch" then some "ralph/a"
  else if q = "w/output/progress.txt" then some "old log" else none

/-- C4 (witness): the trigger case of the archiver theorem at a concrete input:
branch `ralph/b` vs. tracked `ralph/a` on date 2026-10-12 produces exactly
the mkdir of `<today>-a`, the two copies, then the progress-log reset. -/
theorem c4_archiver_witness :
    archFs (createConfig "w" "s").PRD_FILE =
      some "\x7b\"branchName\": \"ralph/b\"\x7d" ∧
    archFs (createConfig "w" "s").LAST_BRANCH_FILE = some "ralph/a" ∧
    jsonParse "\x7b\"branchName\": \"ralph/b\"\x7d" =
      some (.obj [("branchName", .str "ralph/b")]) ∧
    ("ralph/b" : String) ≠ "" ∧
    jsTrim "ralph/a" ≠ "" ∧
    ("ralph/b" : String) ≠ jsTrim "ralph/a" ∧
    archivePreviousRun archFs (createConfig "w" "s")
      "2026-10-12" "2026-10-12T00:00:00.000Z" =
      [.mkdir "w/output/archive/2026-10-12-a",
       .copy "w/output/prd.json" "w/output/archive/2026-10-12-a/prd.json",
       .copy "w/output/progress.txt"
         "w/output/archive/2026-10-12-a/progress.txt",
       .write "w/output/progress.txt"
         (progressHeader "2026-10-12T00:00:00.000Z")] :=
  ⟨rfl, rfl, rfl, by decide, by decide, by decide,
   ((c4_archiver archFs (createConfig "w" "s")
       "2026-10-12" "2026-10-12T00:00:00.000Z").2.2.2.2.2.2
     "\x7b\"branchName\": \"ralph/b\"\x7d" "ralph/a"
     (.obj [("branchName", .str "ralph/b")]) "ralph/b"
     rfl rfl rfl rfl (by decide) (by decide) (by decide)).trans (by decide)⟩

end ClaudeAll
